import Mathlib

/-!
Verification of the configuration patcher of `frk-peers-updater`
(`src/cfg_file_modify.rs`), a shallow embedding in Lean 4.

Documents are `List Char` (the Rust code collects the text into a
`Vec<char>`).  Rust range slices `&chars[a..b]` fault (a run-time panic)
when `a > b` or `b > chars.len()`; every slicing operation is therefore
modelled with an `Option` result where `none` stands for the fault, and the
scanning functions propagate that `none`.  The 8-bit counters of the
original are modelled as `Nat` with an explicit `% 256` at each increment
(release-mode wrap-around semantics).  The `while` loops of the original
are embedded as structurally recursive functions on an explicit counter
whose initial value `to_ + 1 - from_` mirrors the loop bound `cur_pos <= to_`
of the source, so that each recursive call corresponds to exactly one loop
iteration and the functions compute by kernel reduction.
-/

namespace PeersUpdater

/-- Candidate record: the fields of `Peer` (declared in `src/peer.rs`, which is
not among the provided sources) that `add_peers_to_conf_new` reads — the
connection URI, the region label and the country label.  The spec's data model
calls this the candidate record `(address, region_label, country_label)`. -/
structure Peer where
  uri : String
  region : String
  country : String
  deriving DecidableEq

/-- Rust slice `&chars[a..b]` on a `Vec<char>`: `some` of the sub-list when
`a ≤ b` and `b ≤ chars.length`, and `none` (the Rust panic
"range end index out of range") otherwise. -/
def sliceGet (chars : List Char) (a b : Nat) : Option (List Char) :=
  if a ≤ b ∧ b ≤ chars.length then some ((chars.drop a).take (b - a)) else none

/-- Loop body of `find_comment_end_and_continue` (src/cfg_file_modify.rs,
lines 101-124).  The first `Nat` argument counts the remaining loop
iterations permitted by the bound `cur_pos <= to_`; the caller passes
`to_ + 1 - from_`, and since `cur` grows by one per iteration the counter
reaches `0` exactly when `cur = to_ + 1`, i.e. when the `while` loop exits. -/
def fcecAux (chars symbols : List Char) (to_ : Nat) (find_start : Bool) : Nat → Nat → Option Nat
  | 0, cur => some cur
  | fuel + 1, cur =>
    if cur ≤ to_ then
      match sliceGet chars cur (cur + symbols.length) with
      | none => none
      | some s =>
        if s = symbols then
          if find_start then some (cur + symbols.length) else some cur
        else fcecAux chars symbols to_ find_start fuel (cur + 1)
    else some cur

/-- `find_comment_end_and_continue` (src/cfg_file_modify.rs, lines 101-124):
scan from `from_` while `cur_pos <= to_` comparing `chars[cur..cur+len(symbols)]`
with the terminator `symbols`; on a match return the position just past the
terminator (`find_start = true`, continuation mode) or the terminator's own
position (`find_start = false`, inspection mode); return `cur_pos` when the
loop exhausts.  `none` is the out-of-bounds slice panic. -/
def find_comment_end_and_continue (chars symbols : List Char) (from_ to_ : Nat) (find_start : Bool) : Option Nat :=
  fcecAux chars symbols to_ find_start (to_ + 1 - from_) from_

/-- Loop body of `find_peers_start_pos` (src/cfg_file_modify.rs, lines 72-99),
with the iteration counter in the first `Nat` argument (see `fcecAux`). -/
def findPeersAux (chars : List Char) (to_ : Nat) : Nat → Nat → Option Nat
  | 0, cur => some cur
  | fuel + 1, cur =>
    if cur ≤ to_ then
      match chars.get? cur with
      | none => findPeersAux chars to_ fuel (cur + 1)
      | some cr =>
        if cr = '#' then
          match find_comment_end_and_continue chars ['\n'] (cur + 1) to_ true with
          | none => none
          | some p => findPeersAux chars to_ fuel (p + 1)
        else
          match sliceGet chars cur (cur + 2) with
          | none => none
          | some s2 =>
            if s2 = ['/', '/'] then
              match find_comment_end_and_continue chars ['\n'] (cur + 2) to_ true with
              | none => none
              | some p => findPeersAux chars to_ fuel (p + 1)
            else if s2 = ['/', '*'] then
              match find_comment_end_and_continue chars ['*', '/'] (cur + 2) to_ true with
              | none => none
              | some p => findPeersAux chars to_ fuel (p + 1)
            else
              match sliceGet chars cur (cur + 6) with
              | none => none
              | some s6 =>
                if s6 = ['P', 'e', 'e', 'r', 's', ':'] then some cur
                else
                  match sliceGet chars cur (cur + 8) with
                  | none => none
                  | some s8 =>
                    if s8 = ['"', 'P', 'e', 'e', 'r', 's', '"', ':'] then some cur
                    else findPeersAux chars to_ fuel (cur + 1)
    else some cur

/-- `find_peers_start_pos` (src/cfg_file_modify.rs, lines 72-99): scan from
`from_` while `cur_pos <= to_`; skip `#`-, `//`- and `/*`-comments through
`find_comment_end_and_continue` (continuation mode, then the loop's own
`cur_pos += 1`), return the current position when the next 6 characters equal
`Peers:` or (short-circuit) the next 8 equal `"Peers":`, advance by one
otherwise.  The quoted-key comparison is only evaluated when the bare one was
evaluated and failed, exactly as in `a || b`.  `none` is a slice panic. -/
def find_peers_start_pos (chars : List Char) (from_ to_ : Nat) : Option Nat :=
  findPeersAux chars to_ (to_ + 1 - from_) from_

/-- Loop body of `find_end_of_peers_fragment` (src/cfg_file_modify.rs, lines
126-160), with the iteration counter first and then the current position and
the two `u8` bracket counters (kept below 256 by a `% 256` at each increment,
the release-mode wrap-around). -/
def findEndAux (chars : List Char) (to_ : Nat) : Nat → Nat → Nat → Nat → Option Nat
  | 0, cur, _, _ => some cur
  | fuel + 1, cur, open_count, close_count =>
    if cur ≤ to_ then
      match chars.get? cur with
      | none => findEndAux chars to_ fuel (cur + 1) open_count close_count
      | some cr =>
        if cr = '#' then
          match find_comment_end_and_continue chars ['\n'] (cur + 1) to_ false with
          | none => none
          | some p => findEndAux chars to_ fuel (p + 1) open_count close_count
        else if cr = '[' then
          findEndAux chars to_ fuel (cur + 1) ((open_count + 1) % 256) close_count
        else if cr = ']' then
          if 0 < open_count ∧ open_count = (close_count + 1) % 256 then some cur
          else findEndAux chars to_ fuel (cur + 1) open_count ((close_count + 1) % 256)
        else
          match sliceGet chars cur (cur + 2) with
          | none => none
          | some s2 =>
            if s2 = ['/', '/'] then
              match find_comment_end_and_continue chars ['\n'] (cur + 2) to_ false with
              | none => none
              | some p => findEndAux chars to_ fuel (p + 1) open_count close_count
            else if s2 = ['/', '*'] then
              match find_comment_end_and_continue chars ['*', '/'] (cur + 2) to_ false with
              | none => none
              | some p => findEndAux chars to_ fuel (p + 1) open_count close_count
            else findEndAux chars to_ fuel (cur + 1) open_count close_count
    else some cur

/-- `find_end_of_peers_fragment` (src/cfg_file_modify.rs, lines 126-160):
scan from `from_` while `cur_pos <= to_`, skipping comments in inspection
mode (the terminator position is returned and the loop's `cur_pos += 1`
steps past it), incrementing `open_count` on `[` and `close_count` on `]`,
and returning the current position at a `]` where `open_count > 0` and
`open_count = close_count` (both counters `u8`).  `none` is a slice panic. -/
def find_end_of_peers_fragment (chars : List Char) (from_ to_ : Nat) : Option Nat :=
  findEndAux chars to_ (to_ + 1 - from_) from_ 0 0

/-- One candidate entry of the replacement text:
`format!("\n    #{}/{}\n    {}", peer.region, peer.country, peer.uri)`. -/
def peerEntry (peer : Peer) : String :=
  (((("\n    #" ++ peer.region) ++ "/") ++ peer.country) ++ "\n    ") ++ peer.uri

/-- Substring test on character lists: some suffix of `hay` starts with
`needle`.  This is the semantics of Rust `str::contains` for string
patterns. -/
def strContainsAux (needle : List Char) : List Char → Bool
  | [] => needle.isPrefixOf []
  | c :: t => needle.isPrefixOf (c :: t) || strContainsAux needle t

/-- Rust `ignored_peers_p.contains(&peer.uri)`: does `hay` contain `needle`
as a substring. -/
def strContains (hay needle : String) : Bool :=
  strContainsAux needle.data hay.data

/-- The exclusion test of the candidate loop (src/cfg_file_modify.rs, lines
30-34): a candidate is skipped when an ignore text is present and contains
the candidate's URI as a substring. -/
def exclMatches (ignored_peers : Option String) (peer : Peer) : Bool :=
  match ignored_peers with
  | none => false
  | some ignored_peers_p => strContains ignored_peers_p peer.uri

/-- The candidate loop of `add_peers_to_conf_new` (src/cfg_file_modify.rs,
lines 29-42) as a string builder: skip excluded candidates, append
`peerEntry` for the others, stop as soon as the `u8` counter `n_added`
(incremented with wrap-around) equals `n_peers`. -/
def addLoopStr (ignored_peers : Option String) (n_peers : Nat) : List Peer → Nat → String
  | [], _ => ""
  | peer :: rest, n_added =>
    if exclMatches ignored_peers peer then addLoopStr ignored_peers n_peers rest n_added
    else
      peerEntry peer ++
        (if (n_added + 1) % 256 = n_peers then ""
         else addLoopStr ignored_peers n_peers rest ((n_added + 1) % 256))

/-- The same traversal as `addLoopStr`, recording which candidates are
emitted instead of rendering them. -/
def addedList (ignored_peers : Option String) (n_peers : Nat) : List Peer → Nat → List Peer
  | [], _ => []
  | peer :: rest, n_added =>
    if exclMatches ignored_peers peer then addedList ignored_peers n_peers rest n_added
    else
      peer ::
        (if (n_added + 1) % 256 = n_peers then []
         else addedList ignored_peers n_peers rest ((n_added + 1) % 256))

/-- Concatenation of the rendered entries of a candidate list. -/
def joinEntries (l : List Peer) : String :=
  l.foldr (fun peer s => peerEntry peer ++ s) ""

/-- Rust `always_in.split(" ")` on a character list: the pieces between the
space characters, in order, empty pieces included (`""` yields `[[]]`,
`"a  b"` yields `[[a], [], [b]]`), exactly the iterator semantics of
`str::split` with the one-character pattern `" "`. -/
def splitSpaceAux : List Char → List Char → List (List Char)
  | [], acc => [acc.reverse]
  | c :: t, acc => if c = ' ' then acc.reverse :: splitSpaceAux t [] else splitSpaceAux t (c :: acc)

/-- The fixed-additions section of the replacement (src/cfg_file_modify.rs,
lines 44-51): nothing when no `always_in_p` is given, otherwise the marker
`"\n\n    #extra"` followed by one indented line per space-separated piece. -/
def extraStr : Option String → String
  | none => ""
  | some always_in =>
    (splitSpaceAux always_in.data []).foldl
      (fun acc ai_s => acc ++ ("\n    " ++ String.mk ai_s)) "\n\n    #extra"

/-- The full replacement text `new_peers` built by `add_peers_to_conf_new`
(src/cfg_file_modify.rs, lines 26-53): the bare key and opening bracket,
the capped candidate entries, the optional fixed-additions section, and the
closing bracket. -/
def buildNewPeers (peers : List Peer) (n_peers : Nat) (always_in_p ignored_peers : Option String) : String :=
  (("Peers:\n  [" ++ addLoopStr ignored_peers n_peers peers 0) ++ extraStr always_in_p) ++ "\n  ]"

/-- Rust `Vec::splice(a..b, repl)` restricted to its effect on the vector:
`some` of the spliced list when `a ≤ b ≤ v.length`, `none` (panic) when the
range is out of bounds. -/
def listSplice (v : List Char) (a b : Nat) (repl : List Char) : Option (List Char) :=
  if a ≤ b ∧ b ≤ v.length then some ((v.take a ++ repl) ++ v.drop b) else none

/-- Outcome of one invocation of the patcher: a fault (Rust panic), the
graceful no-write return (the "Incorrect configuration file format"
diagnostic), or the full new document text handed to the persistence
collaborator (`File::create` / `write_all`, outside this model). -/
inductive PatchResult where
  | panicked
  | notWritten
  | written (doc : List Char)
  deriving DecidableEq

/-- `add_peers_to_conf_new` (src/cfg_file_modify.rs, lines 6-70) up to the
point where the new text is handed to the file system: locate the key from
position 1, locate the end of the value from 6 characters past the key,
return without writing unless `start < end`, otherwise build the
replacement and splice it over `start..end+1`. -/
def add_peers_to_conf_new (peers : List Peer) (n_peers : Nat) (always_in_p ignored_peers : Option String) (cfg_txt : String) : PatchResult :=
  let char_vec := cfg_txt.data
  let vec_len := char_vec.length
  match find_peers_start_pos char_vec 1 vec_len with
  | none => .panicked
  | some peers_start_pos =>
    match find_end_of_peers_fragment char_vec (peers_start_pos + 6) vec_len with
    | none => .panicked
    | some peers_end_pos =>
      if ¬ (peers_start_pos < peers_end_pos) then .notWritten
      else
        match listSplice char_vec peers_start_pos (peers_end_pos + 1)
            (buildNewPeers peers n_peers always_in_p ignored_peers).data with
        | none => .panicked
        | some out => .written out

/-- Bounded slice comparison of the spec's Cursor (§4.1): equality of
`chars[pos .. pos+len(pat)]` with `pat`, false — not an error — when the
slice would overrun the document. -/
def sliceEqB (chars : List Char) (pos : Nat) (pat : List Char) : Bool :=
  (chars.drop pos).take pat.length == pat

/-- Loop body of the spec's Trivia Skipper, with an iteration counter like
`fcecAux` (the caller passes `chars.length + 1 - from_`). -/
def specSkipAux (chars symbols : List Char) : Nat → Nat → Nat
  | 0, _ => chars.length
  | fuel + 1, cur =>
    if cur < chars.length then
      if sliceEqB chars cur symbols then cur
      else specSkipAux chars symbols fuel (cur + 1)
    else chars.length

/-- Modelled from the spec: the Trivia Skipper of §4.2 in inspection mode,
using the bounded Cursor of §4.1 — advance from `from_` to_ the position of
the first occurrence of the terminator `symbols`, and return document end
(`chars.length`) when no terminator exists before document end. -/
def specSkip (chars symbols : List Char) (from_ : Nat) : Nat :=
  specSkipAux chars symbols (chars.length + 1 - from_) from_

/-- Loop body of the spec's Value Extent Finder, with an iteration counter
like `findEndAux` (the caller passes `chars.length + 1 - from_`). -/
def specFindEndAux (chars : List Char) : Nat → Nat → Nat → Nat → Nat
  | 0, _, _, _ => chars.length
  | fuel + 1, cur, open_count, close_count =>
    match chars.get? cur with
    | none => chars.length
    | some cr =>
      if cr = '#' then
        specFindEndAux chars fuel (specSkip chars ['\n'] (cur + 1) + 1) open_count close_count
      else if cr = '[' then
        specFindEndAux chars fuel (cur + 1) (open_count + 1) close_count
      else if cr = ']' then
        if 0 < open_count ∧ open_count = close_count + 1 then cur
        else specFindEndAux chars fuel (cur + 1) open_count (close_count + 1)
      else if sliceEqB chars cur ['/', '/'] then
        specFindEndAux chars fuel (specSkip chars ['\n'] (cur + 2) + 1) open_count close_count
      else if sliceEqB chars cur ['/', '*'] then
        specFindEndAux chars fuel (specSkip chars ['*', '/'] (cur + 2) + 1) open_count close_count
      else specFindEndAux chars fuel (cur + 1) open_count close_count

/-- Modelled from the spec: the Value Extent Finder of §4.4 — scan forward
from `from_`, skipping trivia through the §4.2 skipper in inspection mode
(resuming one past the returned terminator position, since the enclosing
scan re-examines and then steps over the terminating character), counting
`[` and `]`, succeeding at the first `]` where the counts are equal and
positive, and returning `document_length` on exhaustion.  Counts are exact
natural numbers. -/
def specFindEnd (chars : List Char) (from_ : Nat) : Nat :=
  specFindEndAux chars (chars.length + 1 - from_) from_ 0 0

/-! General helper lemmas. -/

theorem dataAppend (a b : String) : (a ++ b).data = a.data ++ b.data := by
  cases a
  cases b
  rfl

theorem count_take_le_count (l : List Char) (a : Char) (m : Nat) :
    (l.take m).count a ≤ l.count a :=
  (List.take_sublist m l).count_le a

theorem count_take_mono (l : List Char) (a : Char) {m k : Nat} (h : m ≤ k) :
    (l.take m).count a ≤ (l.take k).count a := by
  have heq : l.take m = (l.take k).take m := by
    rw [List.take_take, Nat.min_eq_left h]
  rw [heq]
  exact (List.take_sublist m (l.take k)).count_le a

theorem count_take_succ (l : List Char) (cur : Nat) (c : Char) (h : l.get? cur = some c) (a : Char) :
    (l.take (cur + 1)).count a = (l.take cur).count a + if c = a then 1 else 0 := by
  have h' : l[cur]? = some c := by rw [← List.get?_eq_getElem?]; exact h
  rw [List.take_succ, h', List.count_append]
  simp [List.count_cons, beq_iff_eq]

/-! Lemmas about the replacement builder: the string-building candidate loop
renders exactly the candidates recorded by `addedList`, and `addedList` is a
prefix of the exclusion-filtered candidate list. -/

theorem addLoopStr_eq_join (ign : Option String) (n : Nat) :
    ∀ (l : List Peer) (a : Nat), addLoopStr ign n l a = joinEntries (addedList ign n l a) := by
  intro l
  induction l with
  | nil => intro a; rfl
  | cons p t ih =>
    intro a
    by_cases hx : exclMatches ign p = true
    · simp only [addLoopStr, addedList, hx, if_true]
      exact ih a
    · simp only [addLoopStr, addedList, hx, if_false, Bool.false_eq_true]
      by_cases hb : (a + 1) % 256 = n
      · simp only [hb, if_pos rfl]
        rfl
      · simp only [if_neg hb, ih ((a + 1) % 256)]
        rfl

/-- Number of entries the candidate loop still emits before the 8-bit counter,
currently at `a`, reaches `n` (both below 256): `n - a` going up, wrapping
through 256 otherwise. -/
def entryCap (a n : Nat) : Nat :=
  if a < n then n - a else 256 + n - a

theorem addedList_take (ign : Option String) (n : Nat) (hn : n ≤ 255) :
    ∀ (l : List Peer) (a : Nat), a ≤ 255 →
      addedList ign n l a = (l.filter (fun peer => !exclMatches ign peer)).take (entryCap a n) := by
  intro l
  induction l with
  | nil => intro a _; simp [addedList]
  | cons p t ih =>
    intro a ha
    by_cases hx : exclMatches ign p = true
    · simp only [addedList, hx, if_true, List.filter_cons, Bool.not_eq_eq_eq_not, Bool.not_true]
      rw [if_neg (by simp [hx])]
      exact ih a ha
    · have hxf : exclMatches ign p = false := by
        cases hfx : exclMatches ign p
        · rfl
        · exact absurd hfx hx
      have hcap : 1 ≤ entryCap a n := by unfold entryCap; split <;> omega
      rw [show entryCap a n = (entryCap a n - 1) + 1 from by omega]
      simp only [addedList, hxf, Bool.false_eq_true, if_false, List.filter_cons, hxf,
        Bool.not_false, if_pos rfl, List.take_succ_cons]
      by_cases hb : (a + 1) % 256 = n
      · have hone : entryCap a n - 1 = 0 := by unfold entryCap; split <;> omega
        simp [hb, hone]
      · have ha' : (a + 1) % 256 ≤ 255 := by omega
        have hstep : entryCap ((a + 1) % 256) n = entryCap a n - 1 := by
          unfold entryCap; split <;> split <;> omega
        simp [if_neg hb, ih ((a + 1) % 256) ha', hstep]

theorem addedList_zero (ign : Option String) (n : Nat) (hn : n ≤ 255) (l : List Peer) :
    addedList ign n l 0 =
      (l.filter (fun peer => !exclMatches ign peer)).take (if n = 0 then 256 else n) := by
  rw [addedList_take ign n hn l 0 (by omega)]
  congr 1
  unfold entryCap
  by_cases h0 : n = 0
  · simp [h0]
  · rw [if_pos (by omega), if_neg h0]
    omega

/-! Agreement between `find_comment_end_and_continue` in inspection mode and
the spec's Trivia Skipper `specSkip`: when the scanner terminates without a
fault they return the same position, and a fault can only happen when the
terminator does not occur, in which case the spec skipper reports document
end. -/

theorem sliceEqB_true_iff (chars : List Char) (pos : Nat) (pat : List Char) :
    sliceEqB chars pos pat = true ↔ (chars.drop pos).take pat.length = pat := by
  unfold sliceEqB
  exact beq_iff_eq

theorem sliceEqB_overrun (chars : List Char) (pos : Nat) (pat : List Char)
    (hpat : pat ≠ []) (h : chars.length < pos + pat.length) :
    sliceEqB chars pos pat = false := by
  have hp : 0 < pat.length := List.length_pos.mpr hpat
  have hlen : ((chars.drop pos).take pat.length).length < pat.length := by
    rw [List.length_take, List.length_drop]
    omega
  unfold sliceEqB
  rw [beq_eq_false_iff_ne]
  intro hc
  rw [hc] at hlen
  omega

theorem specSkipAux_overrun (chars symbols : List Char) (hs : symbols ≠ []) :
    ∀ fuel cur, chars.length < cur + symbols.length →
      specSkipAux chars symbols fuel cur = chars.length := by
  intro fuel
  induction fuel with
  | zero => intro cur _; rfl
  | succ f ih =>
    intro cur h
    unfold specSkipAux
    by_cases hc : cur < chars.length
    · rw [if_pos hc, if_neg (by rw [sliceEqB_overrun chars cur symbols hs h]; exact Bool.false_ne_true)]
      exact ih (cur + 1) (by omega)
    · rw [if_neg hc]

theorem specSkipAux_step (chars symbols : List Char) (f cur : Nat) :
    specSkipAux chars symbols (f + 1) cur =
      if cur < chars.length then
        (if sliceEqB chars cur symbols = true then cur else specSkipAux chars symbols f (cur + 1))
      else chars.length := rfl

theorem fcecAux_agree (chars symbols : List Char) (hs : symbols ≠ []) :
    ∀ fuel cur, fuel + cur = chars.length + 1 → cur ≤ chars.length →
      (∀ q, fcecAux chars symbols chars.length false fuel cur = some q →
        specSkipAux chars symbols fuel cur = q ∧ cur ≤ q ∧ q + symbols.length ≤ chars.length)
      ∧ (fcecAux chars symbols chars.length false fuel cur = none →
        specSkipAux chars symbols fuel cur = chars.length) := by
  have hslen : 0 < symbols.length := List.length_pos.mpr hs
  intro fuel
  induction fuel with
  | zero =>
    intro cur hsum hcur
    exact absurd hsum (by omega)
  | succ f ih =>
    intro cur hsum hcur
    by_cases hbound : cur + symbols.length ≤ chars.length
    · have hsg : sliceGet chars cur (cur + symbols.length) =
          some ((chars.drop cur).take symbols.length) := by
        unfold sliceGet
        rw [if_pos ⟨by omega, hbound⟩]
        congr 2
        omega
      have hcur_lt : cur < chars.length := by omega
      by_cases heq : (chars.drop cur).take symbols.length = symbols
      · have hEqB : sliceEqB chars cur symbols = true := (sliceEqB_true_iff chars cur symbols).mpr heq
        have hcode : fcecAux chars symbols chars.length false (f + 1) cur = some cur := by
          simp only [fcecAux, if_pos hcur, hsg, if_pos heq, Bool.false_eq_true, if_false]
        have hspec : specSkipAux chars symbols (f + 1) cur = cur := by
          rw [specSkipAux_step, if_pos hcur_lt, if_pos hEqB]
        constructor
        · intro q hq
          rw [hcode] at hq
          injection hq with hq
          subst hq
          exact ⟨hspec, Nat.le_refl _, hbound⟩
        · intro hq
          rw [hcode] at hq
          exact absurd hq (by simp)
      · have hEqB : ¬ sliceEqB chars cur symbols = true := by
          rw [sliceEqB_true_iff]
          exact heq
        have hcode : fcecAux chars symbols chars.length false (f + 1) cur =
            fcecAux chars symbols chars.length false f (cur + 1) := by
          simp only [fcecAux, if_pos hcur, hsg, if_neg heq]
        have hspec : specSkipAux chars symbols (f + 1) cur =
            specSkipAux chars symbols f (cur + 1) := by
          rw [specSkipAux_step, if_pos hcur_lt, if_neg hEqB]
        have hih := ih (cur + 1) (by omega) (by omega)
        constructor
        · intro q hq
          rw [hcode] at hq
          obtain ⟨h1, h2, h3⟩ := hih.1 q hq
          exact ⟨by rw [hspec]; exact h1, by omega, h3⟩
        · intro hq
          rw [hcode] at hq
          rw [hspec]
          exact hih.2 hq
    · have hsg : sliceGet chars cur (cur + symbols.length) = none := by
        unfold sliceGet
        rw [if_neg (by omega)]
      have hcode : fcecAux chars symbols chars.length false (f + 1) cur = none := by
        simp only [fcecAux, if_pos hcur, hsg]
      constructor
      · intro q hq
        rw [hcode] at hq
        exact absurd hq (by simp)
      · intro _
        exact specSkipAux_overrun chars symbols hs (f + 1) cur (by omega)

theorem fcec_agree (chars symbols : List Char) (hs : symbols ≠ []) (from_ : Nat)
    (hfrom : from_ ≤ chars.length) :
    (∀ q, find_comment_end_and_continue chars symbols from_ chars.length false = some q →
      specSkip chars symbols from_ = q ∧ from_ ≤ q ∧ q + symbols.length ≤ chars.length)
    ∧ (find_comment_end_and_continue chars symbols from_ chars.length false = none →
      specSkip chars symbols from_ = chars.length) := by
  unfold find_comment_end_and_continue specSkip
  exact fcecAux_agree chars symbols hs (chars.length + 1 - from_) from_ (by omega) hfrom

/-! Agreement between `find_end_of_peers_fragment` and the spec's Value
Extent Finder `specFindEnd`, for documents whose bracket occurrence counts
stay within the 8-bit counters. -/

theorem findEndAux_exit (chars : List Char) (to_ fuel cur oc cc : Nat) (h : to_ < cur) :
    findEndAux chars to_ fuel cur oc cc = some cur := by
  cases fuel with
  | zero => rfl
  | succ f => simp only [findEndAux, if_neg (by omega : ¬ cur ≤ to_)]

theorem specFindEndAux_out (chars : List Char) (fuel cur oc cc : Nat) (h : chars.length ≤ cur) :
    specFindEndAux chars fuel cur oc cc = chars.length := by
  cases fuel with
  | zero => rfl
  | succ f => simp only [specFindEndAux, List.get?_eq_none.mpr h]

theorem findEndAux_agree (chars : List Char) (hop : chars.count '[' ≤ 255)
    (hcl : chars.count ']' ≤ 255) :
    ∀ fuel cur oc cc,
      chars.length + 1 ≤ fuel + cur →
      oc ≤ (chars.take cur).count '[' →
      cc ≤ (chars.take cur).count ']' →
      (∀ p, findEndAux chars chars.length fuel cur oc cc = some p →
        (p < chars.length ∧ specFindEndAux chars fuel cur oc cc = p)
        ∨ (chars.length < p ∧ specFindEndAux chars fuel cur oc cc = chars.length))
      ∧ (findEndAux chars chars.length fuel cur oc cc = none →
        specFindEndAux chars fuel cur oc cc = chars.length) := by
  intro fuel
  induction fuel with
  | zero =>
    intro cur oc cc hsum _ _
    have hc : findEndAux chars chars.length 0 cur oc cc = some cur := rfl
    constructor
    · intro p hp
      rw [hc] at hp
      injection hp with hp
      subst hp
      right
      exact ⟨by omega, rfl⟩
    · intro hp
      rw [hc] at hp
      exact absurd hp (by simp)
  | succ f ih =>
    intro cur oc cc hsum hoc hcc
    by_cases hcle : cur ≤ chars.length
    · rcases hget : chars.get? cur with _ | cr
      · -- `chars.get(cur_pos)` is `None`: the loop body is skipped
        have hlen_le : chars.length ≤ cur := List.get?_eq_none.mp hget
        have hcode : findEndAux chars chars.length (f + 1) cur oc cc =
            findEndAux chars chars.length f (cur + 1) oc cc := by
          simp only [findEndAux, if_pos hcle, hget]
        have hcode2 := findEndAux_exit chars chars.length f (cur + 1) oc cc (by omega)
        have hspec : specFindEndAux chars (f + 1) cur oc cc = chars.length := by
          simp only [specFindEndAux, hget]
        constructor
        · intro p hp
          rw [hcode, hcode2] at hp
          injection hp with hp
          subst hp
          right
          exact ⟨by omega, hspec⟩
        · intro hp
          rw [hcode, hcode2] at hp
          exact absurd hp (by simp)
      · have hcur_lt : cur < chars.length := by
          rcases List.get?_eq_some.mp hget with ⟨h, _⟩
          exact h
        by_cases h1 : cr = '#'
        · rcases hf : find_comment_end_and_continue chars ['\n'] (cur + 1) chars.length false with _ | q
          · have hskip := (fcec_agree chars ['\n'] (by simp) (cur + 1) (by omega)).2 hf
            have hcode : findEndAux chars chars.length (f + 1) cur oc cc = none := by
              simp only [findEndAux, if_pos hcle, hget, if_pos h1, hf]
            have hspec : specFindEndAux chars (f + 1) cur oc cc = chars.length := by
              simp only [specFindEndAux, hget, if_pos h1, hskip]
              exact specFindEndAux_out chars f (chars.length + 1) oc cc (by omega)
            constructor
            · intro p hp
              rw [hcode] at hp
              exact absurd hp (by simp)
            · intro _
              exact hspec
          · obtain ⟨hsq, hq1, hq2⟩ := (fcec_agree chars ['\n'] (by simp) (cur + 1) (by omega)).1 q hf
            have hq2' : q + 1 ≤ chars.length := by simpa using hq2
            have hcode : findEndAux chars chars.length (f + 1) cur oc cc =
                findEndAux chars chars.length f (q + 1) oc cc := by
              simp only [findEndAux, if_pos hcle, hget, if_pos h1, hf]
            have hspec : specFindEndAux chars (f + 1) cur oc cc =
                specFindEndAux chars f (q + 1) oc cc := by
              simp only [specFindEndAux, hget, if_pos h1, hsq]
            rw [hcode, hspec]
            exact ih (q + 1) oc cc (by omega)
              (le_trans hoc (count_take_mono chars '[' (by omega)))
              (le_trans hcc (count_take_mono chars ']' (by omega)))
        · by_cases h2 : cr = '['
          · have hcnt : (chars.take (cur + 1)).count '[' = (chars.take cur).count '[' + 1 := by
              rw [count_take_succ chars cur cr hget '[', if_pos h2]
            have hoc1 : oc + 1 ≤ 255 := by
              have := count_take_le_count chars '[' (cur + 1)
              omega
            have hmod : (oc + 1) % 256 = oc + 1 := Nat.mod_eq_of_lt (by omega)
            have hcode : findEndAux chars chars.length (f + 1) cur oc cc =
                findEndAux chars chars.length f (cur + 1) (oc + 1) cc := by
              simp only [findEndAux, if_pos hcle, hget, if_neg h1, if_pos h2, hmod]
            have hspec : specFindEndAux chars (f + 1) cur oc cc =
                specFindEndAux chars f (cur + 1) (oc + 1) cc := by
              simp only [specFindEndAux, hget, if_neg h1, if_pos h2]
            rw [hcode, hspec]
            exact ih (cur + 1) (oc + 1) cc (by omega) (by rw [hcnt]; omega)
              (le_trans hcc (count_take_mono chars ']' (by omega)))
          · by_cases h3 : cr = ']'
            · have hcnt : (chars.take (cur + 1)).count ']' = (chars.take cur).count ']' + 1 := by
                rw [count_take_succ chars cur cr hget ']', if_pos h3]
              have hcc1 : cc + 1 ≤ 255 := by
                have := count_take_le_count chars ']' (cur + 1)
                omega
              have hmod : (cc + 1) % 256 = cc + 1 := Nat.mod_eq_of_lt (by omega)
              by_cases hcond : 0 < oc ∧ oc = cc + 1
              · have hcode : findEndAux chars chars.length (f + 1) cur oc cc = some cur := by
                  simp only [findEndAux, if_pos hcle, hget, if_neg h1, if_neg h2, if_pos h3,
                    hmod, if_pos hcond]
                have hspec : specFindEndAux chars (f + 1) cur oc cc = cur := by
                  simp only [specFindEndAux, hget, if_neg h1, if_neg h2, if_pos h3, if_pos hcond]
                constructor
                · intro p hp
                  rw [hcode] at hp
                  injection hp with hp
                  subst hp
                  left
                  exact ⟨by omega, hspec⟩
                · intro hp
                  rw [hcode] at hp
                  exact absurd hp (by simp)
              · have hcode : findEndAux chars chars.length (f + 1) cur oc cc =
                    findEndAux chars chars.length f (cur + 1) oc (cc + 1) := by
                  simp only [findEndAux, if_pos hcle, hget, if_neg h1, if_neg h2, if_pos h3,
                    hmod, if_neg hcond]
                have hspec : specFindEndAux chars (f + 1) cur oc cc =
                    specFindEndAux chars f (cur + 1) oc (cc + 1) := by
                  simp only [specFindEndAux, hget, if_neg h1, if_neg h2, if_pos h3, if_neg hcond]
                rw [hcode, hspec]
                exact ih (cur + 1) oc (cc + 1) (by omega)
                  (le_trans hoc (count_take_mono chars '[' (by omega)))
                  (by rw [hcnt]; omega)
            · by_cases hbound : cur + 2 ≤ chars.length
              · have hsg : sliceGet chars cur (cur + 2) = some ((chars.drop cur).take 2) := by
                  unfold sliceGet
                  rw [if_pos ⟨by omega, hbound⟩, show cur + 2 - cur = 2 from by omega]
                by_cases hss : (chars.drop cur).take 2 = ['/', '/']
                · have hEqB : sliceEqB chars cur ['/', '/'] = true := by
                    rw [sliceEqB_true_iff]
                    simpa using hss
                  rcases hfc : find_comment_end_and_continue chars ['\n'] (cur + 2) chars.length false with _ | q
                  · have hskip := (fcec_agree chars ['\n'] (by simp) (cur + 2) (by omega)).2 hfc
                    have hcode : findEndAux chars chars.length (f + 1) cur oc cc = none := by
                      simp only [findEndAux, if_pos hcle, hget, if_neg h1, if_neg h2, if_neg h3,
                        hsg, if_pos hss, hfc]
                    have hspec : specFindEndAux chars (f + 1) cur oc cc = chars.length := by
                      simp only [specFindEndAux, hget, if_neg h1, if_neg h2, if_neg h3,
                        if_pos hEqB, hskip]
                      exact specFindEndAux_out chars f (chars.length + 1) oc cc (by omega)
                    constructor
                    · intro p hp
                      rw [hcode] at hp
                      exact absurd hp (by simp)
                    · intro _
                      exact hspec
                  · obtain ⟨hsq, hq1, hq2⟩ :=
                      (fcec_agree chars ['\n'] (by simp) (cur + 2) (by omega)).1 q hfc
                    have hq2' : q + 1 ≤ chars.length := by simpa using hq2
                    have hcode : findEndAux chars chars.length (f + 1) cur oc cc =
                        findEndAux chars chars.length f (q + 1) oc cc := by
                      simp only [findEndAux, if_pos hcle, hget, if_neg h1, if_neg h2, if_neg h3,
                        hsg, if_pos hss, hfc]
                    have hspec : specFindEndAux chars (f + 1) cur oc cc =
                        specFindEndAux chars f (q + 1) oc cc := by
                      simp only [specFindEndAux, hget, if_neg h1, if_neg h2, if_neg h3,
                        if_pos hEqB, hsq]
                    rw [hcode, hspec]
                    exact ih (q + 1) oc cc (by omega)
                      (le_trans hoc (count_take_mono chars '[' (by omega)))
                      (le_trans hcc (count_take_mono chars ']' (by omega)))
                · by_cases hss2 : (chars.drop cur).take 2 = ['/', '*']
                  · have hEqB1 : ¬ sliceEqB chars cur ['/', '/'] = true := by
                      rw [sliceEqB_true_iff]
                      simpa using hss
                    have hEqB2 : sliceEqB chars cur ['/', '*'] = true := by
                      rw [sliceEqB_true_iff]
                      simpa using hss2
                    rcases hfc : find_comment_end_and_continue chars ['*', '/'] (cur + 2) chars.length false with _ | q
                    · have hskip := (fcec_agree chars ['*', '/'] (by simp) (cur + 2) (by omega)).2 hfc
                      have hcode : findEndAux chars chars.length (f + 1) cur oc cc = none := by
                        simp only [findEndAux, if_pos hcle, hget, if_neg h1, if_neg h2, if_neg h3,
                          hsg, if_neg hss, if_pos hss2, hfc]
                      have hspec : specFindEndAux chars (f + 1) cur oc cc = chars.length := by
                        simp only [specFindEndAux, hget, if_neg h1, if_neg h2, if_neg h3,
                          if_neg hEqB1, if_pos hEqB2, hskip]
                        exact specFindEndAux_out chars f (chars.length + 1) oc cc (by omega)
                      constructor
                      · intro p hp
                        rw [hcode] at hp
                        exact absurd hp (by simp)
                      · intro _
                        exact hspec
                    · obtain ⟨hsq, hq1, hq2⟩ :=
                        (fcec_agree chars ['*', '/'] (by simp) (cur + 2) (by omega)).1 q hfc
                      have hq2' : q + 2 ≤ chars.length := by simpa using hq2
                      have hcode : findEndAux chars chars.length (f + 1) cur oc cc =
                          findEndAux chars chars.length f (q + 1) oc cc := by
                        simp only [findEndAux, if_pos hcle, hget, if_neg h1, if_neg h2, if_neg h3,
                          hsg, if_neg hss, if_pos hss2, hfc]
                      have hspec : specFindEndAux chars (f + 1) cur oc cc =
                          specFindEndAux chars f (q + 1) oc cc := by
                        simp only [specFindEndAux, hget, if_neg h1, if_neg h2, if_neg h3,
                          if_neg hEqB1, if_pos hEqB2, hsq]
                      rw [hcode, hspec]
                      exact ih (q + 1) oc cc (by omega)
                        (le_trans hoc (count_take_mono chars '[' (by omega)))
                        (le_trans hcc (count_take_mono chars ']' (by omega)))
                  · have hEqB1 : ¬ sliceEqB chars cur ['/', '/'] = true := by
                      rw [sliceEqB_true_iff]
                      simpa using hss
                    have hEqB2 : ¬ sliceEqB chars cur ['/', '*'] = true := by
                      rw [sliceEqB_true_iff]
                      simpa using hss2
                    have hcode : findEndAux chars chars.length (f + 1) cur oc cc =
                        findEndAux chars chars.length f (cur + 1) oc cc := by
                      simp only [findEndAux, if_pos hcle, hget, if_neg h1, if_neg h2, if_neg h3,
                        hsg, if_neg hss, if_neg hss2]
                    have hspec : specFindEndAux chars (f + 1) cur oc cc =
                        specFindEndAux chars f (cur + 1) oc cc := by
                      simp only [specFindEndAux, hget, if_neg h1, if_neg h2, if_neg h3,
                        if_neg hEqB1, if_neg hEqB2]
                    rw [hcode, hspec]
                    exact ih (cur + 1) oc cc (by omega)
                      (le_trans hoc (count_take_mono chars '[' (by omega)))
                      (le_trans hcc (count_take_mono chars ']' (by omega)))
              · have hsg : sliceGet chars cur (cur + 2) = none := by
                  unfold sliceGet
                  rw [if_neg (by omega)]
                have hcode : findEndAux chars chars.length (f + 1) cur oc cc = none := by
                  simp only [findEndAux, if_pos hcle, hget, if_neg h1, if_neg h2, if_neg h3, hsg]
                have hov : chars.length < cur + 2 := by omega
                have hEqB1 : ¬ sliceEqB chars cur ['/', '/'] = true := by
                  rw [sliceEqB_overrun chars cur ['/', '/'] (by simp)
                    (by simp only [List.length_cons, List.length_nil]; omega)]
                  simp
                have hEqB2 : ¬ sliceEqB chars cur ['/', '*'] = true := by
                  rw [sliceEqB_overrun chars cur ['/', '*'] (by simp)
                    (by simp only [List.length_cons, List.length_nil]; omega)]
                  simp
                have hspec : specFindEndAux chars (f + 1) cur oc cc =
                    specFindEndAux chars f (cur + 1) oc cc := by
                  simp only [specFindEndAux, hget, if_neg h1, if_neg h2, if_neg h3,
                    if_neg hEqB1, if_neg hEqB2]
                have hspec2 : specFindEndAux chars f (cur + 1) oc cc = chars.length :=
                  specFindEndAux_out chars f (cur + 1) oc cc (by omega)
                constructor
                · intro p hp
                  rw [hcode] at hp
                  exact absurd hp (by simp)
                · intro _
                  rw [hspec, hspec2]
    · have hcode := findEndAux_exit chars chars.length (f + 1) cur oc cc (by omega)
      have hspec := specFindEndAux_out chars (f + 1) cur oc cc (by omega)
      constructor
      · intro p hp
        rw [hcode] at hp
        injection hp with hp
        subst hp
        right
        exact ⟨by omega, hspec⟩
      · intro hp
        rw [hcode] at hp
        exact absurd hp (by simp)

/-! Claim theorems. -/

/-- C1: on the decoy document `# Peers: [x]\nPeers:\n  [\n    1\n  ]` the key
locator does NOT return the second occurrence of `Peers:` (position 13): the
scan starts at index 1, so the `#` at index 0 is never examined, the leading
comment is never skipped, and the locator returns position 2 — the decoy
occurrence inside the comment. -/
theorem c1_locator_matches_decoy_inside_comment :
    find_peers_start_pos ("# Peers: [x]\nPeers:\n  [\n    1\n  ]").data 1
        ("# Peers: [x]\nPeers:\n  [\n    1\n  ]").data.length = some 2 ∧
    (("# Peers: [x]\nPeers:\n  [\n    1\n  ]").data.drop 13).take 6 = ("Peers:").data ∧
    ¬ ((some 2 : Option Nat) = some 13) :=
  ⟨rfl, rfl, by decide⟩

/-- C2: the empty document contains neither key spelling, yet the locator
returns 1 and the extent finder returns 7, so `start ≥ end` fails, the
`start < end` guard passes, and the patcher attempts an out-of-bounds splice
(a panic) instead of the claimed graceful no-mutation return. -/
theorem c2_keyless_document_not_graceful :
    find_peers_start_pos ("" : String).data 1 ("" : String).data.length = some 1 ∧
    find_end_of_peers_fragment ("" : String).data (1 + 6) ("" : String).data.length = some 7 ∧
    ¬ ((7 : Nat) ≤ 1) ∧
    add_peers_to_conf_new [] 5 none none "" = PatchResult.panicked :=
  ⟨rfl, rfl, by decide, rfl⟩

/-- C3 (counterexample): on the document `x` the located span satisfies
`open_pos < close_pos` (2 < 8), yet no patched text is produced — the splice
range `2..9` is out of bounds for the 1-character document and the patcher
faults. -/
theorem c3_splice_counterexample :
    find_peers_start_pos ("x").data 1 ("x").data.length = some 2 ∧
    find_end_of_peers_fragment ("x").data (2 + 6) ("x").data.length = some 8 ∧
    (2 : Nat) < 8 ∧
    add_peers_to_conf_new [] 5 none none "x" = PatchResult.panicked :=
  ⟨rfl, rfl, by decide, rfl⟩

/-- C3 (amended): whenever the located span satisfies
`open_pos < close_pos` AND `close_pos < document_length`, the patched
document text equals `document[0:open_pos] ++ replacement ++
document[close_pos+1:]`; in particular every character outside the closed
interval `[open_pos, close_pos]` appears unchanged in the output. -/
theorem c3_patch_splices_replacement (peers : List Peer) (n_peers : Nat)
    (always_in_p ignored_peers : Option String) (cfg_txt : String) (s e : Nat)
    (h1 : find_peers_start_pos cfg_txt.data 1 cfg_txt.data.length = some s)
    (h2 : find_end_of_peers_fragment cfg_txt.data (s + 6) cfg_txt.data.length = some e)
    (h3 : s < e) (h4 : e < cfg_txt.data.length) :
    add_peers_to_conf_new peers n_peers always_in_p ignored_peers cfg_txt =
      PatchResult.written
        ((cfg_txt.data.take s ++ (buildNewPeers peers n_peers always_in_p ignored_peers).data) ++
          cfg_txt.data.drop (e + 1)) := by
  simp only [add_peers_to_conf_new, h1, h2]
  rw [if_neg (by omega : ¬ ¬ s < e)]
  simp only [listSplice]
  rw [if_pos ⟨by omega, by omega⟩]

/-- C3 (witness): the amended theorem applied to the scenario-1 document,
where the locator returns 7 and the extent finder 28. -/
theorem c3_patch_splices_replacement_witness :
    add_peers_to_conf_new [⟨"addr1", "EU", "FR"⟩, ⟨"addr2", "AS", "JP"⟩] 1 none none
        "foo: 1\nPeers:\n  [\n    old\n  ]\nbar: 2\n" =
      PatchResult.written
        ((("foo: 1\nPeers:\n  [\n    old\n  ]\nbar: 2\n").data.take 7 ++
          (buildNewPeers [⟨"addr1", "EU", "FR"⟩, ⟨"addr2", "AS", "JP"⟩] 1 none none).data) ++
          ("foo: 1\nPeers:\n  [\n    old\n  ]\nbar: 2\n").data.drop 29) :=
  c3_patch_splices_replacement [⟨"addr1", "EU", "FR"⟩, ⟨"addr2", "AS", "JP"⟩] 1 none none
    "foo: 1\nPeers:\n  [\n    old\n  ]\nbar: 2\n" 7 28 (by rfl) (by rfl) (by decide) (by decide)

/-- C4 (counterexample): with `max_count = 0` and one candidate, the builder
emits that candidate's entry instead of the claimed zero entries — the `u8`
counter never equals 0 after the first increment, so the cap never
triggers. -/
theorem c4_zero_cap_counterexample :
    addedList none 0 [⟨"addr1", "EU", "FR"⟩] 0 = [⟨"addr1", "EU", "FR"⟩] ∧
    buildNewPeers [⟨"addr1", "EU", "FR"⟩] 0 none none = "Peers:\n  [\n    #EU/FR\n    addr1\n  ]" ∧
    ¬ ((addedList none 0 [⟨"addr1", "EU", "FR"⟩] 0).length = 0) :=
  ⟨rfl, by decide, by decide⟩

/-- C4 (amended): for `max_count` in 1..255 the builder emits exactly
`min(max_count, surviving)` candidate entries, but for `max_count = 0` it
emits `min(256, surviving)` entries (all survivors up to the 8-bit counter
wrap), not zero; the fixed-additions section is appended after the candidate
entries whenever present, independently of `max_count` — the built text is
always the header, the emitted entries, the fixed-additions section and the
closing bracket, in that order. -/
theorem c4_cap_and_fixed_additions (peers : List Peer) (n_peers : Nat)
    (always_in_p ignored_peers : Option String) (hn : n_peers ≤ 255) :
    (addedList ignored_peers n_peers peers 0).length =
      min (if n_peers = 0 then 256 else n_peers)
        ((peers.filter (fun peer => !exclMatches ignored_peers peer)).length) ∧
    buildNewPeers peers n_peers always_in_p ignored_peers =
      (("Peers:\n  [" ++ joinEntries (addedList ignored_peers n_peers peers 0)) ++
        extraStr always_in_p) ++ "\n  ]" := by
  constructor
  · rw [addedList_zero ignored_peers n_peers hn peers, List.length_take]
  · unfold buildNewPeers
    rw [addLoopStr_eq_join]

/-- C4 (witness): the amended theorem at two candidates, cap 1 and a
fixed-additions text. -/
theorem c4_cap_and_fixed_additions_witness :
    (addedList none 1 [⟨"addr1", "EU", "FR"⟩, ⟨"addr2", "AS", "JP"⟩] 0).length = 1 ∧
    buildNewPeers [⟨"addr1", "EU", "FR"⟩, ⟨"addr2", "AS", "JP"⟩] 1 (some "a b") none =
      (("Peers:\n  [" ++
        joinEntries (addedList none 1 [⟨"addr1", "EU", "FR"⟩, ⟨"addr2", "AS", "JP"⟩] 0)) ++
        extraStr (some "a b")) ++ "\n  ]" := by
  have h := c4_cap_and_fixed_additions [⟨"addr1", "EU", "FR"⟩, ⟨"addr2", "AS", "JP"⟩] 1
    (some "a b") none (by decide)
  exact ⟨by rw [h.1]; decide, h.2⟩

/-- C5: slice comparisons do NOT evaluate to no-match when they would
overrun the document: on the document `ab` the key locator's very first
slice test `chars[1..3]` overruns the 2-character document and the whole
scan faults (a Rust panic) instead of continuing. -/
theorem c5_overrunning_slice_faults :
    sliceGet ("ab").data 1 3 = none ∧
    find_peers_start_pos ("ab").data 1 ("ab").data.length = none :=
  ⟨rfl, rfl⟩

/-- C7: when the terminator does not occur at or after the start position
the trivia skipper does NOT return document length: on document `x#ab`
(no newline after the `#` comment opener at index 1) the skipper scans from
position 2, reaches the end, and faults on the out-of-bounds slice
`chars[4..5]` instead of returning 4. -/
theorem c7_skipper_faults_when_terminator_absent :
    ('\n' ∉ ("x#ab").data) ∧
    find_comment_end_and_continue ("x#ab").data ['\n'] 2 ("x#ab").data.length true = none ∧
    ¬ (find_comment_end_and_continue ("x#ab").data ['\n'] 2 ("x#ab").data.length true =
        some ("x#ab").data.length) :=
  ⟨by decide, rfl, by decide⟩

/-- C8: scenario 1 — the document `foo: 1\nPeers:\n  [\n    old\n  ]\nbar: 2\n`
with candidates addr1 (EU/FR) and addr2 (AS/JP), `max_count = 1`, no
exclusions and no fixed additions, is patched to exactly
`foo: 1\nPeers:\n  [\n    #EU/FR\n    addr1\n  ]\nbar: 2\n`. -/
theorem c8_scenario_one :
    add_peers_to_conf_new [⟨"addr1", "EU", "FR"⟩, ⟨"addr2", "AS", "JP"⟩] 1 none none
        "foo: 1\nPeers:\n  [\n    old\n  ]\nbar: 2\n" =
      PatchResult.written ("foo: 1\nPeers:\n  [\n    #EU/FR\n    addr1\n  ]\nbar: 2\n").data :=
  rfl

/-- C9: the exclusion predicate removes exactly the candidates whose address
occurs as a substring of the exclusion text, and the surviving candidates
are emitted in their original relative order: the emitted list is the
`max_count`-prefix (256 when `max_count = 0`) of the exclusion-filtered
candidate list. -/
theorem c9_exclusion_filters_and_preserves_order (peers : List Peer) (excl : String)
    (n_peers : Nat) (hn : n_peers ≤ 255) :
    addedList (some excl) n_peers peers 0 =
      (peers.filter (fun peer => !strContains excl peer.uri)).take
        (if n_peers = 0 then 256 else n_peers) :=
  addedList_zero (some excl) n_peers hn peers

/-- C9 (witness): with exclusion text `addr1 addr3`, candidates addr1 and
addr3 are dropped and addr2 survives. -/
theorem c9_exclusion_filters_and_preserves_order_witness :
    addedList (some "addr1 addr3") 5
        [⟨"addr1", "EU", "FR"⟩, ⟨"addr2", "AS", "JP"⟩, ⟨"addr3", "NA", "US"⟩] 0 =
      [⟨"addr2", "AS", "JP"⟩] := by
  rw [c9_exclusion_filters_and_preserves_order
    [⟨"addr1", "EU", "FR"⟩, ⟨"addr2", "AS", "JP"⟩, ⟨"addr3", "NA", "US"⟩] "addr1 addr3" 5
    (by decide)]
  decide

/-- C10: the replacement text always begins with the bare spelling
`Peers:\n  [` (its first 10 characters), whatever the inputs; consequently a
document matched through the quoted spelling `"Peers":` has that key
rewritten to the bare spelling, as on `x"Peers": [old]`. -/
theorem c10_replacement_uses_bare_key_spelling :
    (∀ (peers : List Peer) (n_peers : Nat) (always_in_p ignored_peers : Option String),
      (buildNewPeers peers n_peers always_in_p ignored_peers).data.take 10 =
        ("Peers:\n  [").data) ∧
    add_peers_to_conf_new [] 5 none none "x\"Peers\": [old]" =
      PatchResult.written ("xPeers:\n  [\n  ]").data := by
  constructor
  · intro peers n_peers always_in_p ignored_peers
    unfold buildNewPeers
    rw [dataAppend, dataAppend, dataAppend, List.append_assoc, List.append_assoc]
    exact List.take_left' rfl
  · rfl

/-- C6 (counterexample): on the document `xPeers:[` (key at 1, scan of the
value extent from 7, a lone `[` and no closing bracket) the extent finder
exhausts the document and returns 9 = document_length + 1, not the claimed
document_length = 8. -/
theorem c6_exhaustion_counterexample :
    find_end_of_peers_fragment ("xPeers:[").data 7 ("xPeers:[").data.length = some 9 ∧
    ("xPeers:[").data.length = 8 ∧
    ¬ ((9 : Nat) = 8) :=
  ⟨rfl, rfl, by decide⟩

/-- C6 (amended): for documents with at most 255 `[` and at most 255 `]`
(the counters are 8-bit), whenever the extent finder returns a position
within the document it is exactly the spec-described result — the first `]`
outside comments at which the running bracket counts are equal and positive;
when no such position exists the finder either returns a position strictly
past document_length (never document_length itself) or faults on an
out-of-bounds slice, and in both of those cases the spec scan reports
document_length (not found). -/
theorem c6_find_end_agrees_with_spec (chars : List Char) (from_ : Nat)
    (hop : chars.count '[' ≤ 255) (hcl : chars.count ']' ≤ 255) :
    (∀ p, find_end_of_peers_fragment chars from_ chars.length = some p →
      ¬ (p = chars.length) ∧
      ((p < chars.length ∧ specFindEnd chars from_ = p)
       ∨ (chars.length < p ∧ specFindEnd chars from_ = chars.length)))
    ∧ (find_end_of_peers_fragment chars from_ chars.length = none →
      specFindEnd chars from_ = chars.length) := by
  unfold find_end_of_peers_fragment specFindEnd
  have h := findEndAux_agree chars hop hcl (chars.length + 1 - from_) from_ 0 0
    (by omega) (Nat.zero_le _) (Nat.zero_le _)
  refine ⟨fun p hp => ?_, h.2⟩
  rcases h.1 p hp with ⟨hlt, hs⟩ | ⟨hgt, hs⟩
  · exact ⟨by omega, Or.inl ⟨hlt, hs⟩⟩
  · exact ⟨by omega, Or.inr ⟨hgt, hs⟩⟩

/-- C6 (witness): the amended theorem applied to the document `xPeers:[`,
where the finder overshoots to 9 — in particular not to the sentinel 8 —
and the spec scan reports not-found (8). -/
theorem c6_find_end_agrees_with_spec_witness :
    ¬ ((9 : Nat) = ("xPeers:[").data.length) ∧
    specFindEnd ("xPeers:[").data 7 = ("xPeers:[").data.length ∧
    find_end_of_peers_fragment ("xPeers:[").data 7 ("xPeers:[").data.length = some 9 := by
  have h := (c6_find_end_agrees_with_spec ("xPeers:[").data 7 (by decide) (by decide)).1 9 (by rfl)
  refine ⟨h.1, ?_, by rfl⟩
  rcases h.2 with ⟨h9, _⟩ | ⟨_, hs⟩
  · exact absurd h9 (by decide)
  · exact hs

end PeersUpdater
